import Mathlib

/-!
Verification of the resource-arbitration core of a node-local VM scheduler
(dynamicvcpu). The development shallowly embeds:

* `schedulerlocal/node/cpusetutils.py` (distance weighting),
* `schedulerlocal/subset/subsetmarket.py` (the `SubsetMarket` arbitration
  engine: registration, hysteresis gate, orders, three-tier reclamation and the
  core-transfer primitive),
* `schedulerlocal/subset/subsetoversubscription.py` (static and
  performance-based oversubscription policies).

Modelling conventions, stated once:

* A physical CPU (`ServerCPU` object) is identified with its integer id
  (`get_cpu_id`); object equality in the Python source is modelled as equality
  of ids.  Topology distances are modelled as exact rationals.
* The `CpuElasticSubset` class itself is not part of the analysed sources; only
  the interface the market uses is (`get_res`, `add_res`, `remove_res`,
  `get_capacity`, `get_allocation`, `get_max_consumer_allocation`,
  `sync_pinning`).  Those operations are modelled from the spec, see `Subset`
  below.  Counts promised to consumers (allocation, max consumer allocation,
  order quantities) are integers.
* An oversubscription policy's `get_available()` observed by the market is
  modelled as an arbitrary function `availF` of the acting subset and the
  current state, covering every concrete policy.
* Python runtime errors reachable in the embedded code (the `IndexError` on an
  empty candidate ranking, the `AttributeError` on a missing fallback, the
  `KeyError`/`ValueError` of `remove_actor`) are modelled by an `Option`
  payload; the state component returned alongside is the state at the point
  where the exception is raised.
-/

/-! ## Definitions: embeddings of the analysed sources -/

/-- A physical CPU, identified by its integer id. -/
abbrev Cpu := Nat

/-- Insertion into a Python `dict` keyed by cpu id: if the key is present the
stored value is updated in place (insertion order kept), otherwise the pair is
appended. -/
def dictInsert (d : List (Nat × ℚ)) (k : Nat) (v : ℚ) : List (Nat × ℚ) :=
  if d.any (fun q => q.1 = k) then d.map (fun q => if q.1 = k then (k, v) else q)
  else d ++ [(k, v)]

/-- Embedding of `get_cpus_with_weight` (cpusetutils.py).  For each cpu of
`from_list`: cpus that occur in `to_list` are excluded entirely; otherwise the
distances to the members of `to_list` are summed, skipping (when `exclude_max`)
any distance `≥ distance_max`; a cpu with no counted distance gets weight `0`,
and one with a non-negative total gets the average distance. -/
def get_cpus_with_weight (dist : Cpu → Cpu → ℚ) (distance_max : ℚ)
    (from_list to_list : List Cpu) (exclude_max : Bool) : List (Nat × ℚ) :=
  from_list.foldl (fun acc c =>
    if c ∈ to_list then acc
    else
      let counted := to_list.filter (fun t => !(exclude_max && dist t c ≥ distance_max))
      let total : ℚ := (counted.map (fun t => dist t c)).sum
      if counted.length ≤ 0 then dictInsert acc c 0
      else if total ≥ 0 then dictInsert acc c (total / counted.length)
      else acc) []

/-- Embedding of `SubsetMarket.__get_ordered_cpu_list`: rank `list_to_sort` by
average distance to `distance_from` (ceiling 50, exclusion disabled) and return
the cpus sorted by increasing weight.  Python's `sorted` is a stable sort, so
any stable sort by weight (here insertion sort) yields the identical list. -/
def orderedCpuList (dist : Cpu → Cpu → ℚ) (list_to_sort distance_from : List Cpu) :
    List Cpu :=
  (List.insertionSort (fun a b : Nat × ℚ => a.2 ≤ b.2)
    (get_cpus_with_weight dist 50 list_to_sort distance_from false)).map Prod.fst

structure OSubset where
  capacity : ℤ
  allocation : ℚ
  maxConsumerAlloc : ℚ
  maxConsumerAllocWith : ℚ → ℚ

/-- Embedding of `SubsetOversubscriptionStatic.get_available` (the
`with_new_vm` flag is irrelevant because `__get_effective_ratio` returns the
configured ratio unconditionally). -/
def static_get_available (ratio : ℚ) (s : OSubset) : ℚ :=
  s.capacity * ratio - s.allocation

/-- Embedding of `SubsetOversubscriptionStatic.unused_resources_count`:
`unused = floor(available / ratio)`; if `capacity - unused` would fall below
the maximum single-consumer allocation, return
`max(0, floor(capacity - max_alloc))` instead. -/
def static_unused_resources_count (ratio : ℚ) (s : OSubset) : ℤ :=
  let available := static_get_available ratio s
  let unused_cpu : ℤ := ⌊available / ratio⌋
  let used_cpu : ℤ := s.capacity - unused_cpu
  if (used_cpu : ℚ) < s.maxConsumerAlloc then
    max 0 ⌊(s.capacity : ℚ) - s.maxConsumerAlloc⌋
  else unused_cpu

/-- Embedding of
`SubsetOversubscriptionBasedOnPerf.get_additional_res_count_required_for_quantity`:
the body binds `request` and `capacity` and then executes `return 1`
unconditionally (the floor-checking code below that line, guarded by a
`TODO: computation based on predict` comment, is unreachable). -/
def perf_additional_res_count (s : OSubset) (quantity : ℚ) : ℤ :=
  let _request := quantity
  let _capacity := s.capacity
  1

/-- The face of a `CpuElasticSubset` the market mutates.  Modelled from the
spec: `res` is the list of owned cores in addition order (`get_res`, with
`add_res` appending and `remove_res` deleting), `get_capacity` is the count of
owned cores, `alloc` is `get_allocation()` and `maxAlloc` is
`get_max_consumer_allocation()` (both are sums of per-consumer virtual
promises, untouched by core transfers), and `syncCount` counts the
`sync_pinning` calls issued to the host. -/
structure Subset where
  res : List Cpu
  alloc : ℤ
  maxAlloc : ℤ
  syncCount : Nat
deriving DecidableEq

/-- `get_capacity`: modelled from the spec as the count of owned cores. -/
def Subset.get_capacity (s : Subset) : ℤ := s.res.length

/-- The whole mutable state the market touches.  `topo` is
`cpuset.get_cpu_list()`; `subsets` lists the ids of every subset known to the
`subset_manager` (so `sub i` is meaningful for `i ∈ subsets`); `actors` is the
market's priority-descending actor list, `prio` the `actors_priority` dict,
`fallback` the `actor_fallback` field, `orders` the `current_orders` dict and
`effective` the cached hysteresis flag. -/
structure MState where
  topo : List Cpu
  subsets : List Nat
  sub : Nat → Subset
  actors : List Nat
  prio : List (Nat × ℤ)
  fallback : Option Nat
  orders : List (Nat × ℤ)
  effective : Option Bool

/-- Point update of one subset. -/
def updateSub (i : Nat) (f : Subset → Subset) (st : MState) : MState :=
  { st with sub := fun j => if j = i then f (st.sub j) else st.sub j }

/-- `subset.add_res(c)`: modelled from the spec, appends the core. -/
def addRes (i : Nat) (c : Cpu) (st : MState) : MState :=
  updateSub i (fun s => { s with res := s.res ++ [c] }) st

/-- `subset.remove_res(c)`: modelled from the spec, removes the core. -/
def removeRes (i : Nat) (c : Cpu) (st : MState) : MState :=
  updateSub i (fun s => { s with res := s.res.erase c }) st

/-- `subset.sync_pinning()`: modelled from the spec, records the host pinning
synchronisation without touching membership. -/
def syncPinning (i : Nat) (st : MState) : MState :=
  updateSub i (fun s => { s with syncCount := s.syncCount + 1 }) st

/-- `subset_manager.get_available()`: modelled from the spec, the currently
unowned topology cores. -/
def get_available (st : MState) : List Cpu :=
  st.topo.filter (fun c => !(st.subsets.any (fun i => (st.sub i).res.contains c)))

/-- The semantics of Python's `l[-amount:]` on an integer `amount`: for
`amount = 0` the slice is the WHOLE list (the notorious `-0` artefact), for
positive `amount` the last `amount` elements, for negative `amount` the
elements from position `-amount` on. -/
def pyTailSlice {α : Type} (l : List α) (amount : ℤ) : List α :=
  if amount = 0 then l
  else if 0 < amount then l.drop (l.length - amount.toNat)
  else l.drop (-amount).toNat

/-- Embedding of `SubsetMarket.__transfer_resources`.  With an undefined
receiver the affected cores are `sender.get_res()[-amount:]` and, outside
simulation, each is removed from the sender before one pinning sync.  With a
defined receiver the sender's cores are ranked by closeness to the receiver's
cores, the first `amount` are moved one by one, and both sides are synced
(sender first) outside simulation. -/
def transfer_resources (dist : Cpu → Cpu → ℚ) (receiver : Option Nat)
    (sender : Nat) (amount : ℤ) (simulation : Bool) (st : MState) :
    List Cpu × MState :=
  match receiver with
  | none =>
    let cpu_affected := pyTailSlice (st.sub sender).res amount
    if simulation then (cpu_affected, st)
    else
      let st1 := cpu_affected.foldl (fun s c => removeRes sender c s) st
      (cpu_affected, syncPinning sender st1)
  | some r =>
    let candidates_ordered := orderedCpuList dist (st.sub sender).res (st.sub r).res
    let cpu_affected := candidates_ordered.take amount.toNat
    let st1 :=
      if simulation then st
      else cpu_affected.foldl (fun s c => addRes r c (removeRes sender c s)) st
    let st2 := if simulation then st1 else syncPinning r (syncPinning sender st1)
    (cpu_affected, st2)

/-- Tier 1 of `SubsetMarket.__get_renters`: the `while True` loop over the
unallocated pool.  One iteration takes the closest available core (closest to
the requester's cores, or to the cores already picked when the requester is
undefined), decrements the remaining count and, outside simulation with a
defined requester, hands the core over.  The loop leaves when the count is
satisfied or the pool query comes back empty; an empty ranking makes the `[0]`
subscript raise `IndexError`, modelled by a `none` payload.  The fuel argument
is always instantiated with `count.toNat`, which dominates the loop's
iteration count, so the fuel pattern never alters the semantics. -/
def tier1 (dist : Cpu → Cpu → ℚ) (req : Option Nat) (sim : Bool) :
    Nat → ℤ → List Cpu → MState → Option (ℤ × List Cpu) × MState
  | 0, count, affected, st => (some (count, affected), st)
  | fuel + 1, count, affected, st =>
    let candidates := get_available st
    if count ≤ 0 ∨ candidates.isEmpty then (some (count, affected), st)
    else
      let distance_from := match req with
        | none => affected
        | some r => (st.sub r).res
      match (orderedCpuList dist candidates distance_from).head? with
      | none => (none, st)
      | some closest =>
        let st1 := match req, sim with
          | some r, false => addRes r closest st
          | _, _ => st
        tier1 dist req sim fuel (count - 1) (affected ++ [closest]) st1

/-- Tier 2 of `SubsetMarket.__get_renters`: walk `reversed(self.actors)` (low
priority first), skip the requester and the already-served actors, and from
each actor with non-negative policy availability transfer
`min(available, remaining)` cores; leave once the remaining count is
non-positive. -/
def tier2 (dist : Cpu → Cpu → ℚ) (availF : Nat → MState → ℤ) (req : Option Nat)
    (to_ignore : List Nat) (sim : Bool) :
    List Nat → ℤ → List Cpu → MState → ℤ × List Cpu × MState
  | [], count, affected, st => (count, affected, st)
  | actor :: rest, count, affected, st =>
    if some actor = req ∨ actor ∈ to_ignore then
      tier2 dist availF req to_ignore sim rest count affected st
    else
      let step :=
        if availF actor st ≥ 0 then
          let amt := min (availF actor st) count
          let t := transfer_resources dist req actor amt sim st
          (count - amt, affected ++ t.1, t.2)
        else (count, affected, st)
      if step.1 ≤ 0 then step
      else tier2 dist availF req to_ignore sim rest step.1 step.2.1 step.2.2

/-- Tier 3 of `SubsetMarket.__get_renters`: the fallback steal.  Runs only
with unclaimed quantity and a requester distinct from `actor_fallback`
(Python `!=`, so an undefined requester matches an undefined fallback);
reading attributes of an undefined fallback raises `AttributeError`, modelled
by a `none` payload.  The steal amount is
`min(fallback.get_capacity() - fallback.get_max_consumer_allocation(), remaining)`
and the transfer happens only when that amount is positive. -/
def tier3 (dist : Cpu → Cpu → ℚ) (req : Option Nat) (sim : Bool) (count : ℤ)
    (st : MState) : Option (List Cpu) × MState :=
  if count > 0 ∧ req ≠ st.fallback then
    match st.fallback with
    | none => (none, st)
    | some fb =>
      let let_to_fallback_at_least := (st.sub fb).maxAlloc
      let reclaim_from_fallback :=
        min ((st.sub fb).get_capacity - let_to_fallback_at_least) count
      if reclaim_from_fallback > 0 then
        let t := transfer_resources dist req fb reclaim_from_fallback sim st
        (some t.1, t.2)
      else (some [], st)
  else (some [], st)

/-- Embedding of `SubsetMarket.__get_renters`: tier 1, a single pinning sync
of the requester when cores were taken from the pool outside simulation, an
early return when satisfied, then tiers 2 and 3. -/
def get_renters (dist : Cpu → Cpu → ℚ) (availF : Nat → MState → ℤ)
    (req : Option Nat) (quantity : ℤ) (to_ignore : List Nat) (sim : Bool)
    (st : MState) : Option (List Cpu) × MState :=
  match tier1 dist req sim quantity.toNat quantity [] st with
  | (none, st1) => (none, st1)
  | (some (count, affected), st1) =>
    let st2 := match affected, sim, req with
      | _ :: _, false, some r => syncPinning r st1
      | _, _, _ => st1
    if count ≤ 0 then (some affected, st2)
    else
      let t2 := tier2 dist availF req to_ignore sim st2.actors.reverse count affected st2
      match tier3 dist req sim t2.1 t2.2.2 with
      | (none, st3) => (none, st3)
      | (some aff3, st3) => (some (t2.2.1 ++ aff3), st3)

/-- Embedding of `SubsetMarket.reclaim_from_all`: the resolution procedure
with an empty ignore list. -/
def reclaim_from_all (dist : Cpu → Cpu → ℚ) (availF : Nat → MState → ℤ)
    (quantity : ℤ) (simulation : Bool) (requester : Option Nat) (st : MState) :
    Option (List Cpu) × MState :=
  get_renters dist availF requester quantity [] simulation st

/-- Lookup in a Python dict modelled as an association list. -/
def alookup (a : Nat) : List (Nat × ℤ) → Option ℤ
  | [] => none
  | (k, v) :: rest => if k = a then some v else alookup a rest

/-- The loop of `SubsetMarket.execute_orders` over the snapshot of `actors`:
each actor holding a positive pending order is served through
`__get_renters` (ignoring the actors already served this pass), then appended
to `removed_from_market` and deleted from `current_orders`; a raised
exception leaves the remaining orders in place, otherwise all orders are
cleared at the end. -/
def execute_orders_loop (dist : Cpu → Cpu → ℚ) (availF : Nat → MState → ℤ) :
    List Nat → List Nat → MState → Bool × MState
  | [], _, st => (true, { st with orders := [] })
  | actor :: rest, removed, st =>
    match alookup actor st.orders with
    | some q =>
      if q > 0 then
        match get_renters dist availF (some actor) q removed false st with
        | (none, st1) => (false, st1)
        | (some _, st1) =>
          execute_orders_loop dist availF rest (removed ++ [actor])
            { st1 with orders := st1.orders.filter (fun p => p.1 ≠ actor) }
      else execute_orders_loop dist availF rest removed st
    | none => execute_orders_loop dist availF rest removed st

/-- Embedding of `SubsetMarket.execute_orders`. -/
def execute_orders (dist : Cpu → Cpu → ℚ) (availF : Nat → MState → ℤ)
    (st : MState) : Bool × MState :=
  execute_orders_loop dist availF st.actors [] st

/-- The hysteresis margin of `is_market_effective`: `0.8` once the flag is
set, `1` when it is unset or cleared. -/
def marketMargin (st : MState) : ℚ :=
  if st.effective = some true then 0.8 else 1

/-- The allocation total `is_market_effective` sums over registered actors. -/
def totalAllocation (st : MState) : ℤ :=
  (st.actors.map (fun a => (st.sub a).alloc)).sum

/-- Embedding of `SubsetMarket.is_market_effective`: recompute (when asked or
uncached) compares the summed allocation against `len(cpu_list) * margin` and
caches the verdict; otherwise the cache is returned. -/
def is_market_effective (recompute : Bool) (st : MState) : Bool × MState :=
  if st.effective = none ∨ recompute then
    let verdict : Bool :=
      decide ((totalAllocation st : ℚ) > (st.topo.length : ℚ) * marketMargin st)
    (verdict, { st with effective := some verdict })
  else (st.effective.getD false, st)

/-- The insertion scan of `SubsetMarket.register_actor`: the new actor is
placed before the first existing actor whose priority is strictly lower,
appended at the end otherwise. -/
def insertByPrio (pr : List (Nat × ℤ)) (priority : ℤ) (a : Nat) :
    List Nat → List Nat
  | [] => [a]
  | b :: rest =>
    if (alookup b pr).getD 0 < priority then a :: b :: rest
    else b :: insertByPrio pr priority a rest

/-- Update of the `actors_priority` dict (value replaced in place when the key
exists, appended otherwise). -/
def dictSetPrio (pr : List (Nat × ℤ)) (a : Nat) (p : ℤ) : List (Nat × ℤ) :=
  if (alookup a pr).isSome then pr.map (fun q => if q.1 = a then (a, p) else q)
  else pr ++ [(a, p)]

/-- Embedding of `SubsetMarket.register_actor`: a no-op for an already
registered actor; otherwise the actor is inserted by descending priority
(scanning with the pre-update priority dict, exactly as the source loop
does), its priority recorded, and `actor_fallback` reset to the LAST actor of
the updated list. -/
def register_actor (a : Nat) (priority : ℤ) (st : MState) : MState :=
  if a ∈ st.actors then st
  else
    let newActors := insertByPrio st.prio priority a st.actors
    { st with
      prio := dictSetPrio st.prio a priority,
      actors := newActors,
      fallback := newActors.getLast? }

/-- Embedding of `SubsetMarket.remove_actor`: `del actors_priority[actor]`
raises `KeyError` for an unknown key and `actors.remove(actor)` raises
`ValueError` for an absent actor (both modelled as `none`); on success the
actor leaves both containers and `actor_fallback` is cleared ONLY when no
actor remains — otherwise it keeps its previous value. -/
def remove_actor (a : Nat) (st : MState) : Option MState :=
  if (alookup a st.prio).isSome ∧ a ∈ st.actors then
    let newActors := st.actors.erase a
    some { st with
      prio := st.prio.filter (fun q => q.1 ≠ a),
      actors := newActors,
      fallback := if newActors.isEmpty then none else st.fallback }
  else none

/-- Embedding of `SubsetMarket.pass_order`: a second pending order for the
same actor raises `ValueError`. -/
def pass_order (a : Nat) (request : ℤ) (st : MState) : Option MState :=
  if (alookup a st.orders).isSome then none
  else some { st with orders := st.orders ++ [(a, request)] }

/-- The actor list is sorted by non-increasing priority (ties in any order),
priorities read from the `actors_priority` dict. -/
def descByPrio (pr : List (Nat × ℤ)) (l : List Nat) : Prop :=
  l.Chain' (fun x y => (alookup y pr).getD 0 ≤ (alookup x pr).getD 0)

/-- The empty market state used by the C6 witness and counterexample. -/
def c6base : MState :=
  ⟨[], [], (fun _ => ⟨[], 0, 0, 0⟩), [], [], none, [], none⟩

/-- The market after registering actor 1 (priority 2) then actor 2
(priority 1). -/
def c6st2 : MState := register_actor 2 1 (register_actor 1 2 c6base)

/-- The state `remove_actor 2 c6st2` produces: actor 1 remains, yet the
fallback still names the removed actor 2. -/
def c6removed : MState :=
  ⟨[], [], (fun _ => ⟨[], 0, 0, 0⟩), [1], [(1, 2)], some 2, [], none⟩

/-- The state for the C3 counterexample: two unowned cores `0, 1`, one
registered subset `0` owning nothing. -/
def c3st : MState :=
  ⟨[0, 1], [0], (fun _ => ⟨[], 0, 0, 0⟩), [0], [(0, 1)], some 0, [], none⟩

/-- The concrete state of the C4 witness: fallback subset 7 owns cores
`[5, 6]` with maximum single-consumer allocation 1. -/
def c4st : MState :=
  ⟨[5, 6], [7], (fun _ => ⟨[5, 6], 0, 1, 0⟩), [7], [(7, 1)], some 7, [], none⟩

/-- The multiset of cores owned across every subset known to the manager. -/
def ownedM (st : MState) : Multiset Cpu :=
  (st.subsets.map (fun i => ((st.sub i).res : Multiset Cpu))).sum

/-- Owned cores plus the unallocated pool. -/
def totalM (st : MState) : Multiset Cpu :=
  ownedM st + (get_available st : Multiset Cpu)

/-- Wellformedness of a market state: distinct topology cores, distinct
subset ids, per-subset duplicate-free owned lists drawn from the topology, a
core owned by at most one subset, actors registered with the manager, and a
fallback (when defined) registered with the manager. -/
def WF (st : MState) : Prop :=
  st.topo.Nodup ∧
  st.subsets.Nodup ∧
  (∀ i ∈ st.subsets, (st.sub i).res.Nodup) ∧
  (∀ i ∈ st.subsets, ∀ c ∈ (st.sub i).res, c ∈ st.topo) ∧
  (∀ i ∈ st.subsets, ∀ j ∈ st.subsets, ∀ c ∈ (st.sub i).res,
    c ∈ (st.sub j).res → i = j) ∧
  (∀ a ∈ st.actors, a ∈ st.subsets) ∧
  (st.fallback = none ∨ st.fallback.getD 0 ∈ st.subsets)

instance (st : MState) : Decidable (WF st) := by
  unfold WF
  infer_instance

/-- The non-simulated core-moving operations of the market named by the
claim: the core-transfer primitive, `reclaim_from_all` with simulation
disabled, and `execute_orders`. -/
inductive MarketOp where
  | transferOp (receiver : Option Nat) (sender : Nat) (amount : ℤ)
  | reclaimOp (requester : Option Nat) (quantity : ℤ)
  | execOp

/-- Wellformedness of an operation against the manager's subset ids: the
transfer primitive is only ever invoked with a sender subset of the system. -/
def OpWF (subs : List Nat) : MarketOp → Prop
  | .transferOp _ sender _ => sender ∈ subs
  | .reclaimOp _ _ => True
  | .execOp => True

instance (subs : List Nat) (op : MarketOp) : Decidable (OpWF subs op) := by
  cases op <;> unfold OpWF <;> infer_instance

/-- Run one market operation, keeping only the state. -/
def runOp (dist : Cpu → Cpu → ℚ) (availF : Nat → MState → ℤ) :
    MarketOp → MState → MState
  | .transferOp r s a, st => (transfer_resources dist r s a false st).2
  | .reclaimOp req q, st => (reclaim_from_all dist availF q false req st).2
  | .execOp, st => (execute_orders dist availF st).2

/-- Run a sequence of market operations. -/
def runOps (dist : Cpu → Cpu → ℚ) (availF : Nat → MState → ℤ)
    (ops : List MarketOp) (st : MState) : MState :=
  ops.foldl (fun s op => runOp dist availF op s) st

/-- The state components no market operation may alter. -/
def SameShape (st st' : MState) : Prop :=
  st'.topo = st.topo ∧ st'.subsets = st.subsets ∧ st'.actors = st.actors ∧
    st'.fallback = st.fallback

/-- The concrete wellformed market of the C1 witness: four cores, two
subsets owning one core each, one pending order. -/
def c1st : MState :=
  ⟨[0, 1, 2, 3], [0, 1],
    (fun i => if i = 0 then ⟨[0], 2, 1, 0⟩ else ⟨[1], 1, 1, 0⟩),
    [0, 1], [(0, 2), (1, 1)], some 1, [(0, 1)], none⟩

/-- The operation sequence of the C1 witness: a raw transfer, a reclamation
and an order execution. -/
def c1ops : List MarketOp :=
  [MarketOp.transferOp (some 0) 1 1, MarketOp.reclaimOp (some 0) 1,
    MarketOp.execOp]

/-! ## Theorems -/

theorem dictInsert_keys_eq_or_append (d : List (Nat × ℚ)) (k : Nat) (v : ℚ) :
    (dictInsert d k v).map Prod.fst = d.map Prod.fst ∨
      (dictInsert d k v).map Prod.fst = d.map Prod.fst ++ [k] := by
  unfold dictInsert
  by_cases h : d.any (fun q => q.1 = k)
  · left
    simp only [h, if_pos, List.map_map]
    apply List.map_congr_left
    intro a _
    by_cases hk : a.1 = k
    · simp [Function.comp, hk]
    · simp [Function.comp, hk]
  · right
    simp [h]

theorem mem_keys_dictInsert {d : List (Nat × ℚ)} {k x : Nat} {v : ℚ}
    (hx : x ∈ (dictInsert d k v).map Prod.fst) :
    x ∈ d.map Prod.fst ∨ x = k := by
  rcases dictInsert_keys_eq_or_append d k v with h | h <;> rw [h] at hx
  · exact Or.inl hx
  · rcases List.mem_append.mp hx with h1 | h1
    · exact Or.inl h1
    · simp at h1; exact Or.inr h1

theorem not_mem_keys_get_cpus_with_weight (dist : Cpu → Cpu → ℚ) (dmax : ℚ)
    (from_list to_list : List Cpu) (em : Bool) {c : Cpu} (hc : c ∈ to_list) :
    c ∉ (get_cpus_with_weight dist dmax from_list to_list em).map Prod.fst := by
  unfold get_cpus_with_weight
  suffices h : ∀ (acc : List (Nat × ℚ)), c ∉ acc.map Prod.fst →
      c ∉ ((from_list.foldl (fun acc c' =>
        if c' ∈ to_list then acc
        else
          let counted := to_list.filter (fun t => !(em && dist t c' ≥ dmax))
          let total : ℚ := (counted.map (fun t => dist t c')).sum
          if counted.length ≤ 0 then dictInsert acc c' 0
          else if total ≥ 0 then dictInsert acc c' (total / counted.length)
          else acc) acc)).map Prod.fst by
    exact h [] (by simp)
  induction from_list with
  | nil => intro acc hacc; simpa using hacc
  | cons x xs ih =>
    intro acc hacc
    simp only [List.foldl_cons]
    apply ih
    by_cases hx : x ∈ to_list
    · simpa [hx] using hacc
    · have hxc : x ≠ c := fun h => hx (h ▸ hc)
      simp only [hx, if_neg, if_false]
      split
      · intro hmem
        rcases mem_keys_dictInsert hmem with h | h
        · exact hacc h
        · exact hxc h.symm
      · split
        · intro hmem
          rcases mem_keys_dictInsert hmem with h | h
          · exact hacc h
          · exact hxc h.symm
        · exact hacc

/-- C9.  Weighting exclusion: a core belonging to both the candidate set and
the reference set never appears in the mapping returned by
`get_cpus_with_weight`, for every topology, ceiling and exclusion flag. -/
theorem weighting_exclusion (dist : Cpu → Cpu → ℚ) (distance_max : ℚ)
    (from_list to_list : List Cpu) (exclude_max : Bool) (c : Cpu)
    (hfrom : c ∈ from_list) (hto : c ∈ to_list) :
    c ∉ (get_cpus_with_weight dist distance_max from_list to_list exclude_max).map
      Prod.fst :=
  not_mem_keys_get_cpus_with_weight dist distance_max from_list to_list exclude_max hto

/-- Witness for C9 at a concrete topology: cpu 2 lies in both sets and is
absent from the weighting result. -/
theorem weighting_exclusion_witness :
    2 ∈ [1, 2, 3] ∧ 2 ∈ [2, 4] ∧
      2 ∉ (get_cpus_with_weight (fun _ _ => 0) 50 [1, 2, 3] [2, 4] false).map
        Prod.fst :=
  ⟨by decide, by decide,
    weighting_exclusion (fun _ _ => 0) 50 [1, 2, 3] [2, 4] false 2 (by decide)
      (by decide)⟩

/-- C8 (amended).  The static policy's unused count never exceeds
`max 0 ⌊capacity - maxConsumerAlloc⌋`; the frozen claim's bound
`capacity - maxConsumerAlloc` without the clamp to `0` fails when the maximum
single-consumer allocation exceeds the capacity (see the counterexample). -/
theorem static_unused_resources_le_clamp (ratio : ℚ) (s : OSubset) :
    static_unused_resources_count ratio s ≤
      max 0 ⌊(s.capacity : ℚ) - s.maxConsumerAlloc⌋ := by
  unfold static_unused_resources_count
  dsimp only
  split
  · exact le_refl _
  · rename_i h
    refine le_trans ?_ (le_max_right 0 _)
    rw [Int.le_floor]
    push_neg at h
    push_cast at h ⊢
    linarith

/-- C8, scenario from the spec: ratio `2.0`, capacity `4`, allocation `6`,
maximum single-consumer allocation `3`: the static policy reports exactly `1`
unused core, which does not exceed `4 - 3 = 1`. -/
theorem static_unused_resources_scenario :
    static_unused_resources_count 2 ⟨4, 6, 3, fun _ => 0⟩ = 1 ∧
      static_unused_resources_count 2 ⟨4, 6, 3, fun _ => 0⟩ ≤ 4 - 3 := by
  constructor <;> norm_num [static_unused_resources_count, static_get_available]

/-- Counterexample to C8 as frozen: with ratio `1`, capacity `2`, allocation
`2` and a maximum single-consumer allocation of `3` (a VM bigger than the
pool, exactly the situation the clamp is for), `unused_resources_count`
returns `0`, which is strictly greater than
`capacity - maxConsumerAlloc = -1`. -/
theorem static_unused_resources_counterexample :
    static_unused_resources_count 1 ⟨2, 2, 3, fun _ => 0⟩ = 0 ∧
      ¬ (static_unused_resources_count 1 ⟨2, 2, 3, fun _ => 0⟩ ≤ 2 - 3) := by
  constructor <;> norm_num [static_unused_resources_count, static_get_available]

/-- C7 (code bug).  The performance-based policy's
`get_additional_res_count_required_for_quantity` returns the constant `1`:
at capacity `2` with a candidate VM of `32` vCPUs (projected maximum
single-consumer allocation `32`), the returned count leaves
`capacity + returned = 3 < 32`, violating the self-oversubscription floor the
claim (and the function's own dead code) requires. -/
theorem perf_additional_res_count_ignores_floor :
    perf_additional_res_count ⟨2, 0, 0, fun q => q⟩ 32 = 1 ∧
      ((2 : ℚ) + (perf_additional_res_count ⟨2, 0, 0, fun q => q⟩ 32 : ℤ) <
        OSubset.maxConsumerAllocWith ⟨2, 0, 0, fun q => q⟩ 32) := by
  constructor
  · rfl
  · norm_num [perf_additional_res_count]

/-- C10 (code bug).  A generic pull (`receiver=None`) of `amount = 0` from a
sender owning cores `[10, 11]`, with simulation off, affects BOTH cores and
empties the sender: Python's `get_res()[-0:]` is the whole owned list, so the
transfer primitive affects more than `amount` cores and strips the sender,
where the claim (and the surrounding code's intent) requires zero cores
affected. -/
theorem transfer_zero_amount_bug :
    ((transfer_resources (fun _ _ => 0) none 7 0 false
        ⟨[10, 11], [7], (fun _ => ⟨[10, 11], 0, 0, 0⟩), [7], [(7, 1)], some 7,
          [], none⟩).1 = [10, 11]) ∧
      (((transfer_resources (fun _ _ => 0) none 7 0 false
        ⟨[10, 11], [7], (fun _ => ⟨[10, 11], 0, 0, 0⟩), [7], [(7, 1)], some 7,
          [], none⟩).2.sub 7).res = []) := by
  constructor <;> rfl

theorem transfer_resources_sim_state (dist : Cpu → Cpu → ℚ) (receiver : Option Nat)
    (sender : Nat) (amount : ℤ) (st : MState) :
    (transfer_resources dist receiver sender amount true st).2 = st := by
  cases receiver <;> simp [transfer_resources]

theorem tier1_sim_state (dist : Cpu → Cpu → ℚ) (req : Option Nat) :
    ∀ (fuel : Nat) (count : ℤ) (affected : List Cpu) (st : MState),
      (tier1 dist req true fuel count affected st).2 = st := by
  intro fuel
  induction fuel with
  | zero => intro count affected st; rfl
  | succ n ih =>
    intro count affected st
    simp only [tier1]
    split
    · rfl
    · split
      · rfl
      · cases req with
        | none => exact ih _ _ _
        | some r => exact ih _ _ _

theorem tier2_sim_state (dist : Cpu → Cpu → ℚ) (availF : Nat → MState → ℤ)
    (req : Option Nat) (to_ignore : List Nat) :
    ∀ (l : List Nat) (count : ℤ) (affected : List Cpu) (st : MState),
      (tier2 dist availF req to_ignore true l count affected st).2.2 = st := by
  intro l
  induction l with
  | nil => intro count affected st; rfl
  | cons actor rest ih =>
    intro count affected st
    simp only [tier2, transfer_resources_sim_state]
    split
    · exact ih _ _ _
    · split
      · split
        · rfl
        · exact ih _ _ _
      · split
        · rfl
        · exact ih _ _ _

theorem tier3_sim_state (dist : Cpu → Cpu → ℚ) (req : Option Nat) (count : ℤ)
    (st : MState) : (tier3 dist req true count st).2 = st := by
  rw [tier3]
  split
  · split
    · rfl
    · dsimp only
      split
      · simp [transfer_resources_sim_state]
      · rfl
  · rfl

/-- C2.  Simulation no-op: `reclaim_from_all` with `simulation = true` returns
the state unchanged — for every requester (including an undefined one), every
quantity and every starting state, no subset's owned-core list changes, the
unallocated pool (derived from ownership) is untouched, and no
`sync_pinning` is recorded on any subset; this also covers runs that end in
the modelled `IndexError`/`AttributeError`. -/
theorem reclaim_simulation_noop (dist : Cpu → Cpu → ℚ)
    (availF : Nat → MState → ℤ) (quantity : ℤ) (requester : Option Nat)
    (st : MState) :
    (reclaim_from_all dist availF quantity true requester st).2 = st := by
  unfold reclaim_from_all get_renters
  have h1 := tier1_sim_state dist requester quantity.toNat quantity [] st
  cases ht : tier1 dist requester true quantity.toNat quantity [] st with
  | mk payload st1 =>
    rw [ht] at h1
    dsimp only at h1
    rw [h1]
    cases payload with
    | none => rfl
    | some p =>
      cases p with
      | mk count affected =>
        dsimp only
        clear ht
        have hsync : (match affected, true, requester with
            | _ :: _, false, some r => syncPinning r st
            | _, _, _ => st) = st := by
          cases affected <;> cases requester <;> rfl
        rw [hsync]
        split
        · rfl
        · have h2 := tier2_sim_state dist availF requester [] st.actors.reverse
            count affected st
          cases ht2 : tier2 dist availF requester [] true st.actors.reverse
              count affected st with
          | mk count2 rest2 =>
            rw [ht2] at h2
            dsimp only at h2
            have h3 := tier3_sim_state dist requester count2 rest2.2
            cases ht3 : tier3 dist requester true count2 rest2.2 with
            | mk payload3 st3 =>
              rw [ht3] at h3
              dsimp only at h3
              cases payload3 <;> simp [h2, h3]

/-- C5 (amended).  A recomputation of `is_market_effective` returns `true`
exactly when the summed allocation strictly exceeds
`coreCount * margin`, with margin `1` when the flag was previously unset,
cleared or `false` and `0.8` when it was previously `true`; consequently,
once active the gate stays active exactly while the total allocation is
strictly above 80% of the core count, and it flips to `false` exactly when
the total allocation is at or below 80% (in particular it already flips at
exactly 80%, not only strictly below — see the counterexample to the frozen
wording). -/
theorem market_hysteresis (st : MState) :
    ((is_market_effective true st).1 = true ↔
      (st.topo.length : ℚ) * marketMargin st < (totalAllocation st : ℚ)) ∧
    (st.effective = some true →
      ((is_market_effective true st).1 = false ↔
        (totalAllocation st : ℚ) ≤ (0.8 : ℚ) * (st.topo.length : ℚ))) := by
  constructor
  · simp [is_market_effective, gt_iff_lt]
  · intro h
    simp [is_market_effective, marketMargin, h, gt_iff_lt, not_lt, mul_comm]

/-- Witness for C5 at a concrete state: flag previously `true`, five cores,
total allocation `3` (between 80% and 100% exclusively is not needed —
`3 ≤ 4`), so the recomputation flips to `false`. -/
theorem market_hysteresis_witness :
    (is_market_effective true
        ⟨[0, 1, 2, 3, 4], [], (fun _ => ⟨[], 3, 0, 0⟩), [9], [(9, 1)], some 9,
          [], some true⟩).1 = false :=
  ((market_hysteresis
      ⟨[0, 1, 2, 3, 4], [], (fun _ => ⟨[], 3, 0, 0⟩), [9], [(9, 1)], some 9,
        [], some true⟩).2 rfl).mpr (by norm_num [totalAllocation])

/-- Counterexample to C5 as frozen: the flag was previously `true` and the
total allocation `4` equals exactly 80% of the five cores — NOT below 80% —
yet the recomputation returns `false`: the gate does not keep returning
`true` throughout the claimed `[80%, 100%]` band and flips without the total
being strictly below 80%. -/
theorem market_hysteresis_boundary_counterexample :
    (MState.effective
        ⟨[0, 1, 2, 3, 4], [], (fun _ => ⟨[], 4, 0, 0⟩), [9], [(9, 1)], some 9,
          [], some true⟩ = some true) ∧
    ((is_market_effective true
        ⟨[0, 1, 2, 3, 4], [], (fun _ => ⟨[], 4, 0, 0⟩), [9], [(9, 1)], some 9,
          [], some true⟩).1 = false) ∧
    ((totalAllocation
        ⟨[0, 1, 2, 3, 4], [], (fun _ => ⟨[], 4, 0, 0⟩), [9], [(9, 1)], some 9,
          [], some true⟩ : ℚ) =
      (0.8 : ℚ) * 5) := by
  refine ⟨rfl, ?_, by norm_num [totalAllocation]⟩
  simp only [is_market_effective, totalAllocation, marketMargin]
  norm_num

theorem alookup_map_replace (pr : List (Nat × ℤ)) (a : Nat) (p : ℤ) (x : Nat)
    (hx : x ≠ a) :
    alookup x (pr.map (fun q => if q.1 = a then (a, p) else q)) = alookup x pr := by
  induction pr with
  | nil => rfl
  | cons q rest ih =>
    obtain ⟨k, v⟩ := q
    have hhead : (if ((k, v) : Nat × ℤ).1 = a then (a, p) else (k, v)) =
        if k = a then (a, p) else (k, v) := rfl
    rw [List.map_cons, hhead]
    by_cases hq : k = a
    · subst hq
      rw [if_pos rfl]
      show (if k = x then some p else _) = if k = x then some v else _
      rw [if_neg (fun h : k = x => hx (h ▸ rfl)), if_neg (fun h : k = x => hx (h ▸ rfl))]
      exact ih
    · rw [if_neg hq]
      show (if k = x then some v else _) = if k = x then some v else _
      by_cases hkx : k = x
      · rw [if_pos hkx, if_pos hkx]
      · rw [if_neg hkx, if_neg hkx]
        exact ih

theorem alookup_append_single_ne (pr : List (Nat × ℤ)) (a : Nat) (p : ℤ) (x : Nat)
    (hx : x ≠ a) : alookup x (pr ++ [(a, p)]) = alookup x pr := by
  induction pr with
  | nil =>
    show (if a = x then some p else none) = none
    rw [if_neg (fun h : a = x => hx h.symm)]
  | cons q rest ih =>
    obtain ⟨k, v⟩ := q
    rw [List.cons_append]
    show (if k = x then some v else _) = if k = x then some v else _
    by_cases hkx : k = x
    · rw [if_pos hkx, if_pos hkx]
    · rw [if_neg hkx, if_neg hkx]
      exact ih

theorem alookup_dictSetPrio_ne (pr : List (Nat × ℤ)) (a : Nat) (p : ℤ) (x : Nat)
    (hx : x ≠ a) : alookup x (dictSetPrio pr a p) = alookup x pr := by
  unfold dictSetPrio
  split
  · exact alookup_map_replace pr a p x hx
  · exact alookup_append_single_ne pr a p x hx

theorem alookup_dictSetPrio_self (pr : List (Nat × ℤ)) (a : Nat) (p : ℤ) :
    alookup a (dictSetPrio pr a p) = some p := by
  unfold dictSetPrio
  split
  · rename_i hsome
    induction pr with
    | nil => simp [alookup] at hsome
    | cons q rest ih =>
      obtain ⟨k, v⟩ := q
      have hhead : (if ((k, v) : Nat × ℤ).1 = a then (a, p) else (k, v)) =
          if k = a then (a, p) else (k, v) := rfl
      rw [List.map_cons, hhead]
      by_cases hq : k = a
      · subst hq
        rw [if_pos rfl]
        show (if k = k then some p else _) = some p
        rw [if_pos rfl]
      · rw [if_neg hq]
        show (if k = a then some v else _) = some p
        rw [if_neg hq]
        apply ih
        have : alookup a ((k, v) :: rest) = alookup a rest := by
          show (if k = a then some v else _) = _
          rw [if_neg hq]
        rwa [this] at hsome
  · rename_i hnone
    induction pr with
    | nil =>
      show (if a = a then some p else none) = some p
      rw [if_pos rfl]
    | cons q rest ih =>
      obtain ⟨k, v⟩ := q
      have hk : k ≠ a := by
        intro h
        subst h
        have : alookup k ((k, v) :: rest) = some v := by
          show (if k = k then some v else _) = some v
          rw [if_pos rfl]
        rw [this] at hnone
        simp at hnone
      rw [List.cons_append]
      show (if k = a then some v else _) = some p
      rw [if_neg hk]
      apply ih
      have : alookup a ((k, v) :: rest) = alookup a rest := by
        show (if k = a then some v else _) = _
        rw [if_neg hk]
      rwa [this] at hnone

theorem chain'_congr_mem {R S : Nat → Nat → Prop} :
    ∀ {l : List Nat}, (∀ x ∈ l, ∀ y ∈ l, R x y → S x y) → l.Chain' R →
      l.Chain' S := by
  intro l
  induction l with
  | nil => intro _ _; exact List.chain'_nil
  | cons x xs ih =>
    intro h hc
    cases xs with
    | nil => simp
    | cons y ys =>
      rw [List.chain'_cons] at hc ⊢
      refine ⟨h x (by simp) y (by simp) hc.1, ih ?_ hc.2⟩
      intro u hu v hv
      exact h u (List.mem_cons_of_mem _ hu) v (List.mem_cons_of_mem _ hv)

theorem insertByPrio_ne_nil (pr : List (Nat × ℤ)) (p : ℤ) (a : Nat) :
    ∀ l : List Nat, insertByPrio pr p a l ≠ [] := by
  intro l
  cases l with
  | nil => simp [insertByPrio]
  | cons b rest =>
    rw [insertByPrio]
    split <;> simp

theorem chain'_insertByPrio (pr : List (Nat × ℤ)) (p : ℤ) (a : Nat)
    (v : Nat → ℤ) :
    ∀ l : List Nat, a ∉ l → (∀ b ∈ l, v b = (alookup b pr).getD 0) → v a = p →
      List.Chain' (fun x y => v y ≤ v x) l →
      List.Chain' (fun x y => v y ≤ v x) (insertByPrio pr p a l) := by
  intro l
  induction l with
  | nil => intro _ _ _ _; simp [insertByPrio]
  | cons b rest ih =>
    intro ha hmem hva hc
    rw [insertByPrio]
    split
    · rename_i hlt
      rw [List.chain'_cons]
      refine ⟨?_, hc⟩
      rw [hva, hmem b (by simp)]
      exact le_of_lt hlt
    · rename_i hge
      rw [List.chain'_cons']
      constructor
      · intro y hy
        cases rest with
        | nil =>
          simp only [insertByPrio, List.head?] at hy
          simp at hy
          subst hy
          rw [hva, hmem b (by simp)]
          exact not_lt.mp hge
        | cons c rest2 =>
          rw [insertByPrio] at hy
          by_cases hcp : (alookup c pr).getD 0 < p
          · simp only [if_pos hcp, List.head?] at hy
            simp at hy
            subst hy
            rw [hva, hmem b (by simp)]
            exact not_lt.mp hge
          · simp only [if_neg hcp, List.head?] at hy
            simp at hy
            subst hy
            exact (List.chain'_cons.mp hc).1
      · refine ih (fun h => ha (List.mem_cons_of_mem _ h))
          (fun x hx => hmem x (List.mem_cons_of_mem _ hx)) hva ?_
        exact (List.chain'_cons'.mp hc).2

/-- C6 (amended).  After `register_actor` of a new actor the fallback is the
LAST element of the updated actor list (and registration keeps the list
sorted by non-increasing priority, so that last element is a lowest-priority
registered actor); re-registering is a no-op.  After a successful
`remove_actor` the fallback becomes undefined when no actor remains, but when
actors remain it KEEPS its previous value even if the removed actor was the
fallback (the frozen claim's recomputation does not happen — see the
counterexample). -/
theorem register_remove_fallback :
    (∀ (a : Nat) (p : ℤ) (st : MState), a ∉ st.actors →
      (register_actor a p st).fallback = (register_actor a p st).actors.getLast? ∧
      (register_actor a p st).actors ≠ [] ∧
      (descByPrio st.prio st.actors →
        descByPrio (register_actor a p st).prio (register_actor a p st).actors)) ∧
    (∀ (a : Nat) (p : ℤ) (st : MState), a ∈ st.actors →
      register_actor a p st = st) ∧
    (∀ (a : Nat) (st st' : MState), remove_actor a st = some st' →
      st'.actors = st.actors.erase a ∧
      (st'.actors = [] → st'.fallback = none) ∧
      (st'.actors ≠ [] → st'.fallback = st.fallback)) := by
  refine ⟨?_, ?_, ?_⟩
  · intro a p st ha
    rw [register_actor, if_neg ha]
    refine ⟨rfl, insertByPrio_ne_nil _ _ _ _, ?_⟩
    intro hdesc
    show descByPrio (dictSetPrio st.prio a p) (insertByPrio st.prio p a st.actors)
    unfold descByPrio
    apply chain'_insertByPrio st.prio p a
      (fun x => ((alookup x (dictSetPrio st.prio a p)).getD 0)) st.actors ha
    · intro b hb
      rw [alookup_dictSetPrio_ne st.prio a p b (fun h => ha (h ▸ hb))]
    · rw [alookup_dictSetPrio_self]
      rfl
    · refine chain'_congr_mem ?_ hdesc
      intro x hx y hy h
      rwa [alookup_dictSetPrio_ne st.prio a p x (fun hh => ha (hh ▸ hx)),
        alookup_dictSetPrio_ne st.prio a p y (fun hh => ha (hh ▸ hy))]
  · intro a p st ha
    rw [register_actor, if_pos ha]
  · intro a st st' h
    rw [remove_actor] at h
    split at h
    · rename_i hcond
      simp only [Option.some.injEq] at h
      subst h
      refine ⟨rfl, ?_, ?_⟩
      · intro hempty
        dsimp only at hempty ⊢
        simp [show st.actors.erase a = [] from hempty]
      · intro hne
        dsimp only at hne ⊢
        have hfalse : (st.actors.erase a).isEmpty = false := by
          rw [List.isEmpty_eq_false_iff_exists_mem]
          rcases List.exists_mem_of_ne_nil _ hne with ⟨x, hx⟩
          exact ⟨x, hx⟩
        simp [hfalse]
    · exact absurd h (by simp)

/-- Counterexample to C6 as frozen: register priorities `1 ↦ 2`, `2 ↦ 1`,
then remove actor 2 (the fallback).  Actor 1 is the only registered subset
left, but the fallback still designates the REMOVED actor 2, which differs
from the lowest-priority registered subset (the last element of the actor
list). -/
theorem remove_actor_stale_fallback :
    (remove_actor 2 c6st2).map (fun s => (s.fallback, s.actors)) =
        some (some 2, [1]) ∧
      some 2 ≠ ([1] : List Nat).getLast? := by
  constructor
  · rfl
  · decide

/-- Witness for C6 at concrete inputs: registering actor 1 into the empty
market and removing actor 2 from `c6st2` exhibit the amended behaviour. -/
theorem register_remove_fallback_witness :
    (1 ∉ c6base.actors ∧
      (register_actor 1 2 c6base).fallback =
        (register_actor 1 2 c6base).actors.getLast?) ∧
    (remove_actor 2 c6st2 = some c6removed ∧
      c6removed.actors = c6st2.actors.erase 2 ∧
      (c6removed.actors ≠ [] → c6removed.fallback = c6st2.fallback)) :=
  ⟨⟨by decide, (register_remove_fallback.1 1 2 c6base (by decide)).1⟩,
    ⟨by rfl, (register_remove_fallback.2.2 2 c6st2 c6removed (by rfl)).1,
      (register_remove_fallback.2.2 2 c6st2 c6removed (by rfl)).2.2⟩⟩

/-- Counterexample to C3 as frozen: from the same state, requesting 2 cores
for subset 0, the dry run returns `[0, 0]` — the same unallocated core picked
TWICE, because a simulation never mutates the requester, so the pool and the
requester's cores (hence the ranking) never change — while the real run
returns `[0, 1]`.  The dry-run list differs from the list the identical
non-simulated call transfers, and the dry run picks an unallocated core more
than once. -/
theorem reclaim_dry_run_counterexample :
    (reclaim_from_all (fun _ _ => 0) (fun _ _ => 0) 2 true (some 0) c3st).1 =
        some [0, 0] ∧
      (reclaim_from_all (fun _ _ => 0) (fun _ _ => 0) 2 false (some 0) c3st).1 =
        some [0, 1] ∧
      (reclaim_from_all (fun _ _ => 0) (fun _ _ => 0) 2 true (some 0) c3st).1 ≠
        (reclaim_from_all (fun _ _ => 0) (fun _ _ => 0) 2 false (some 0) c3st).1 := by
  refine ⟨?_, ?_, ?_⟩
  · norm_num [reclaim_from_all, get_renters, tier1, c3st, get_available,
      orderedCpuList, get_cpus_with_weight, dictInsert, List.insertionSort,
      List.orderedInsert, updateSub, addRes]
  · norm_num [reclaim_from_all, get_renters, tier1, c3st, get_available,
      orderedCpuList, get_cpus_with_weight, dictInsert, List.insertionSort,
      List.orderedInsert, updateSub, addRes, syncPinning]
  · intro h
    rw [show (reclaim_from_all (fun _ _ => 0) (fun _ _ => 0) 2 true (some 0)
          c3st).1 = some [0, 0] by
        norm_num [reclaim_from_all, get_renters, tier1, c3st, get_available,
          orderedCpuList, get_cpus_with_weight, dictInsert, List.insertionSort,
          List.orderedInsert, updateSub, addRes],
      show (reclaim_from_all (fun _ _ => 0) (fun _ _ => 0) 2 false (some 0)
          c3st).1 = some [0, 1] by
        norm_num [reclaim_from_all, get_renters, tier1, c3st, get_available,
          orderedCpuList, get_cpus_with_weight, dictInsert, List.insertionSort,
          List.orderedInsert, updateSub, addRes, syncPinning]] at h
    exact absurd h (by decide)

/-- C3 (amended).  The dry-run list does coincide with the list of the
identical non-simulated call started from the same state whenever the
requested quantity is at most 1 and the unallocated pool is nonempty (the
request is then settled inside tier 1, whose single pick is computed
identically in both modes); for quantities of 2 or more the dry run may
return the same unallocated core repeatedly, unlike the real call — see the
counterexample. -/
theorem reclaim_dry_run_quantity_le_one (dist : Cpu → Cpu → ℚ)
    (availF : Nat → MState → ℤ) (req : Option Nat) (q : ℤ) (st : MState)
    (hq : q ≤ 1) (hpool : (get_available st).isEmpty = false) :
    (reclaim_from_all dist availF q true req st).1 =
      (reclaim_from_all dist availF q false req st).1 := by
  unfold reclaim_from_all get_renters
  by_cases hq0 : q ≤ 0
  · have ht : q.toNat = 0 := Int.toNat_of_nonpos hq0
    rw [ht]
    simp only [tier1]
    rw [if_pos hq0, if_pos hq0]
  · have hq1 : q = 1 := by omega
    subst hq1
    rw [show (1 : ℤ).toNat = Nat.succ 0 from rfl]
    simp only [tier1]
    rw [hpool]
    simp only [show ¬((1 : ℤ) ≤ 0) by decide, false_or, Bool.false_eq_true,
      if_false]
    cases hhead : (orderedCpuList dist (get_available st)
        (match req with | none => [] | some r => (st.sub r).res)).head? with
    | none => rfl
    | some c =>
      cases req with
      | none => rfl
      | some r => rfl

/-- Witness for C3's amended statement at quantity 1 on the concrete state of
the counterexample. -/
theorem reclaim_dry_run_quantity_le_one_witness :
    ((1 : ℤ) ≤ 1) ∧ (get_available c3st).isEmpty = false ∧
      (reclaim_from_all (fun _ _ => 0) (fun _ _ => 0) 1 true (some 0) c3st).1 =
        (reclaim_from_all (fun _ _ => 0) (fun _ _ => 0) 1 false (some 0) c3st).1 :=
  ⟨by decide, by decide,
    reclaim_dry_run_quantity_le_one (fun _ _ => 0) (fun _ _ => 0) (some 0) 1
      c3st (by decide) (by decide)⟩

@[simp]
theorem updateSub_topo (i : Nat) (f : Subset → Subset) (st : MState) :
    (updateSub i f st).topo = st.topo := rfl

@[simp]
theorem updateSub_subsets (i : Nat) (f : Subset → Subset) (st : MState) :
    (updateSub i f st).subsets = st.subsets := rfl

@[simp]
theorem updateSub_actors (i : Nat) (f : Subset → Subset) (st : MState) :
    (updateSub i f st).actors = st.actors := rfl

@[simp]
theorem updateSub_fallback (i : Nat) (f : Subset → Subset) (st : MState) :
    (updateSub i f st).fallback = st.fallback := rfl

@[simp]
theorem updateSub_orders (i : Nat) (f : Subset → Subset) (st : MState) :
    (updateSub i f st).orders = st.orders := rfl

@[simp]
theorem updateSub_prio (i : Nat) (f : Subset → Subset) (st : MState) :
    (updateSub i f st).prio = st.prio := rfl

@[simp]
theorem updateSub_effective (i : Nat) (f : Subset → Subset) (st : MState) :
    (updateSub i f st).effective = st.effective := rfl

theorem updateSub_sub (i j : Nat) (f : Subset → Subset) (st : MState) :
    (updateSub i f st).sub j = if j = i then f (st.sub j) else st.sub j := rfl

@[simp]
theorem updateSub_sub_self (i : Nat) (f : Subset → Subset) (st : MState) :
    (updateSub i f st).sub i = f (st.sub i) := by
  rw [updateSub_sub, if_pos rfl]

theorem updateSub_sub_ne (i j : Nat) (f : Subset → Subset) (st : MState)
    (h : j ≠ i) : (updateSub i f st).sub j = st.sub j := by
  rw [updateSub_sub, if_neg h]

theorem syncPinning_sub_res (i j : Nat) (st : MState) :
    ((syncPinning i st).sub j).res = (st.sub j).res := by
  by_cases h : j = i
  · subst h; simp [syncPinning]
  · rw [syncPinning, updateSub_sub_ne _ _ _ _ h]

theorem foldl_removeRes_res_self (sender : Nat) (aff : List Cpu) :
    ∀ st : MState,
      ((aff.foldl (fun s c => removeRes sender c s) st).sub sender).res =
        aff.foldl (fun l c => l.erase c) (st.sub sender).res := by
  induction aff with
  | nil => intro st; rfl
  | cons c cs ih =>
    intro st
    simp only [List.foldl_cons]
    rw [ih]
    simp [removeRes]

theorem foldl_move_res_sender (r sender : Nat) (hne : r ≠ sender)
    (aff : List Cpu) :
    ∀ st : MState,
      ((aff.foldl (fun s c => addRes r c (removeRes sender c s)) st).sub
          sender).res =
        aff.foldl (fun l c => l.erase c) (st.sub sender).res := by
  induction aff with
  | nil => intro st; rfl
  | cons c cs ih =>
    intro st
    simp only [List.foldl_cons]
    rw [ih]
    rw [addRes, updateSub_sub_ne _ _ _ _ (fun h => hne h.symm)]
    simp [removeRes]

theorem length_foldl_erase_ge (aff : List Cpu) :
    ∀ res : List Cpu,
      (res.length : ℤ) - aff.length ≤
        ((aff.foldl (fun l c => l.erase c) res).length : ℤ) := by
  induction aff with
  | nil => intro res; simp
  | cons c cs ih =>
    intro res
    simp only [List.foldl_cons, List.length_cons]
    refine le_trans ?_ (ih (res.erase c))
    have h1 : (res.length : ℤ) - 1 ≤ ((res.erase c).length : ℤ) := by
      rw [List.length_erase]
      split
      · rename_i hmem
        have : 1 ≤ res.length := List.length_pos.mpr
          (List.ne_nil_of_mem hmem)
        push_cast [Nat.cast_sub this]
        omega
      · omega
    push_cast
    omega

theorem pyTailSlice_length_le {α : Type} (l : List α) (amount : ℤ)
    (h : 0 < amount) : ((pyTailSlice l amount).length : ℤ) ≤ amount := by
  unfold pyTailSlice
  rw [if_neg (by omega), if_pos h]
  rw [List.length_drop]
  omega

/-- C4.  Whenever the fallback-steal tier actually steals cores
(`simulate = false`, requester distinct from the fallback, nonempty affected
list), the number of cores stolen is at most
`fallback.get_capacity() - fallback.get_max_consumer_allocation()` computed
at the moment of the steal, and the fallback's capacity after the steal is
still at least its maximum single-consumer allocation. -/
theorem fallback_steal_floor (dist : Cpu → Cpu → ℚ) (req : Option Nat)
    (count : ℤ) (st : MState) (fb : Nat) (aff : List Cpu)
    (hfb : st.fallback = some fb)
    (hrun : (tier3 dist req false count st).1 = some aff)
    (hne : aff ≠ []) :
    (aff.length : ℤ) ≤ (st.sub fb).get_capacity - (st.sub fb).maxAlloc ∧
      (st.sub fb).maxAlloc ≤
        ((tier3 dist req false count st).2.sub fb).get_capacity := by
  unfold tier3 at hrun ⊢
  rw [hfb] at hrun ⊢
  by_cases hcond : count > 0 ∧ req ≠ (some fb : Option Nat)
  · rw [if_pos hcond] at hrun ⊢
    dsimp only at hrun ⊢
    set rfb := min ((st.sub fb).get_capacity - (st.sub fb).maxAlloc) count
      with hrfb
    by_cases hpos : rfb > 0
    · rw [if_pos hpos] at hrun ⊢
      have hrle : rfb ≤ (st.sub fb).get_capacity - (st.sub fb).maxAlloc :=
        min_le_left _ _
      dsimp only at hrun ⊢
      cases req with
      | none =>
        simp only [transfer_resources, Bool.false_eq_true, if_false] at hrun ⊢
        have haff : pyTailSlice (st.sub fb).res rfb = aff :=
          Option.some.inj hrun
        have hlen : (aff.length : ℤ) ≤ rfb := by
          rw [← haff]
          exact pyTailSlice_length_le _ _ hpos
        refine ⟨le_trans hlen hrle, ?_⟩
        show (st.sub fb).maxAlloc ≤ Subset.get_capacity _
        unfold Subset.get_capacity
        rw [syncPinning_sub_res, foldl_removeRes_res_self]
        have hbound := length_foldl_erase_ge (pyTailSlice (st.sub fb).res rfb)
          ((st.sub fb).res)
        have hc : (st.sub fb).get_capacity = ((st.sub fb).res.length : ℤ) := rfl
        have hlen2 : ((pyTailSlice (st.sub fb).res rfb).length : ℤ) ≤ rfb :=
          pyTailSlice_length_le _ _ hpos
        omega
      | some r =>
        have hrne : r ≠ fb := by
          intro h
          exact hcond.2 (by rw [h])
        simp only [transfer_resources, Bool.false_eq_true, if_false] at hrun ⊢
        have haff2 : List.take rfb.toNat
            (orderedCpuList dist (st.sub fb).res (st.sub r).res) = aff :=
          Option.some.inj hrun
        have hlen : (aff.length : ℤ) ≤ rfb := by
          rw [← haff2]
          have h1 := List.length_take_le rfb.toNat
            (orderedCpuList dist (st.sub fb).res (st.sub r).res)
          have h0 : (0 : ℤ) ≤ rfb := le_of_lt hpos
          omega
        refine ⟨le_trans hlen hrle, ?_⟩
        show (st.sub fb).maxAlloc ≤ Subset.get_capacity _
        unfold Subset.get_capacity
        rw [syncPinning_sub_res, syncPinning_sub_res,
          foldl_move_res_sender r fb hrne]
        have hbound := length_foldl_erase_ge
          ((orderedCpuList dist (st.sub fb).res (st.sub r).res).take rfb.toNat)
          ((st.sub fb).res)
        have hc : (st.sub fb).get_capacity = ((st.sub fb).res.length : ℤ) := rfl
        have hlen2 : (((orderedCpuList dist (st.sub fb).res
            (st.sub r).res).take rfb.toNat).length : ℤ) ≤ rfb := by
          have h1 := List.length_take_le rfb.toNat
            (orderedCpuList dist (st.sub fb).res (st.sub r).res)
          have h0 : (0 : ℤ) ≤ rfb := le_of_lt hpos
          omega
        omega
    · rw [if_neg hpos] at hrun
      simp only [Option.some.injEq] at hrun
      exact absurd hrun.symm (by simpa using hne)
  · rw [if_neg hcond] at hrun
    simp only [Option.some.injEq] at hrun
    exact absurd hrun.symm (by simpa using hne)

/-- Witness for C4: a generic reclamation of 5 from `c4st` steals exactly one
core from the fallback, which keeps capacity 1 ≥ its maximum single-consumer
allocation 1. -/
theorem fallback_steal_floor_witness :
    c4st.fallback = some 7 ∧
      (tier3 (fun _ _ => 0) none false 5 c4st).1 = some [6] ∧
      ((([6] : List Cpu).length : ℤ) ≤
          (c4st.sub 7).get_capacity - (c4st.sub 7).maxAlloc ∧
        (c4st.sub 7).maxAlloc ≤
          ((tier3 (fun _ _ => 0) none false 5 c4st).2.sub 7).get_capacity) :=
  ⟨rfl, rfl,
    fallback_steal_floor (fun _ _ => 0) none 5 c4st 7 [6] rfl rfl (by decide)⟩

theorem SameShape_refl (st : MState) : SameShape st st := ⟨rfl, rfl, rfl, rfl⟩

theorem SameShape_trans {st st' st'' : MState} (h1 : SameShape st st')
    (h2 : SameShape st' st'') : SameShape st st'' :=
  ⟨h2.1.trans h1.1, h2.2.1.trans h1.2.1, h2.2.2.1.trans h1.2.2.1,
    h2.2.2.2.trans h1.2.2.2⟩

theorem SameShape_updateSub (i : Nat) (f : Subset → Subset) (st : MState) :
    SameShape st (updateSub i f st) := ⟨rfl, rfl, rfl, rfl⟩

theorem SameShape_foldl {α : Type} (f : MState → α → MState)
    (hf : ∀ (st : MState) (a : α), SameShape st (f st a)) :
    ∀ (l : List α) (st : MState), SameShape st (l.foldl f st) := by
  intro l
  induction l with
  | nil => intro st; exact SameShape_refl st
  | cons a rest ih =>
    intro st
    exact SameShape_trans (hf st a) (ih (f st a))

theorem SameShape_orders (st : MState) (o : List (Nat × ℤ)) :
    SameShape st { st with orders := o } := ⟨rfl, rfl, rfl, rfl⟩

theorem SameShape_syncPinning (i : Nat) (st : MState) :
    SameShape st (syncPinning i st) := ⟨rfl, rfl, rfl, rfl⟩

theorem SameShape_transfer (dist : Cpu → Cpu → ℚ) (recv : Option Nat)
    (sender : Nat) (amt : ℤ) (sim : Bool) (st : MState) :
    SameShape st (transfer_resources dist recv sender amt sim st).2 := by
  unfold transfer_resources
  cases recv with
  | none =>
    dsimp only
    split
    · exact SameShape_refl st
    · exact SameShape_trans
        (SameShape_foldl _ (fun st c => SameShape_updateSub _ _ st) _ st)
        (SameShape_syncPinning _ _)
  | some r =>
    dsimp only
    cases sim with
    | true =>
      simp only [if_pos rfl]
      exact SameShape_refl st
    | false =>
      simp only [Bool.false_eq_true, if_false]
      exact SameShape_trans
        (SameShape_foldl (fun s c => addRes r c (removeRes sender c s))
          (fun st c => SameShape_trans (SameShape_updateSub _ _ st)
            (SameShape_updateSub _ _ _)) _ st)
        (SameShape_trans (SameShape_syncPinning _ _) (SameShape_syncPinning _ _))

theorem SameShape_tier1 (dist : Cpu → Cpu → ℚ) (req : Option Nat) (sim : Bool) :
    ∀ (fuel : Nat) (count : ℤ) (affected : List Cpu) (st : MState),
      SameShape st (tier1 dist req sim fuel count affected st).2 := by
  intro fuel
  induction fuel with
  | zero => intro count affected st; exact SameShape_refl st
  | succ n ih =>
    intro count affected st
    simp only [tier1]
    split
    · exact SameShape_refl st
    · split
      · exact SameShape_refl st
      · cases req with
        | none =>
          cases sim with
          | true => exact ih _ _ _
          | false => exact ih _ _ _
        | some r =>
          cases sim with
          | true => exact ih _ _ _
          | false =>
            exact SameShape_trans (SameShape_updateSub _ _ st) (ih _ _ _)

theorem SameShape_tier2 (dist : Cpu → Cpu → ℚ) (availF : Nat → MState → ℤ)
    (req : Option Nat) (to_ignore : List Nat) (sim : Bool) :
    ∀ (l : List Nat) (count : ℤ) (affected : List Cpu) (st : MState),
      SameShape st (tier2 dist availF req to_ignore sim l count affected st).2.2 := by
  intro l
  induction l with
  | nil => intro count affected st; exact SameShape_refl st
  | cons actor rest ih =>
    intro count affected st
    simp only [tier2]
    split
    · exact ih _ _ _
    · split
      · split
        · exact SameShape_transfer dist req actor _ sim st
        · exact SameShape_trans (SameShape_transfer dist req actor _ sim st)
            (ih _ _ _)
      · split
        · exact SameShape_refl st
        · exact ih _ _ _

theorem SameShape_tier3 (dist : Cpu → Cpu → ℚ) (req : Option Nat) (sim : Bool)
    (count : ℤ) (st : MState) :
    SameShape st (tier3 dist req sim count st).2 := by
  unfold tier3
  split
  · split
    · exact SameShape_refl st
    · dsimp only
      split
      · exact SameShape_transfer dist req _ _ sim st
      · exact SameShape_refl st
  · exact SameShape_refl st

theorem SameShape_get_renters (dist : Cpu → Cpu → ℚ)
    (availF : Nat → MState → ℤ) (req : Option Nat) (quantity : ℤ)
    (to_ignore : List Nat) (sim : Bool) (st : MState) :
    SameShape st (get_renters dist availF req quantity to_ignore sim st).2 := by
  unfold get_renters
  have h1 := SameShape_tier1 dist req sim quantity.toNat quantity [] st
  cases ht : tier1 dist req sim quantity.toNat quantity [] st with
  | mk payload st1 =>
    rw [ht] at h1
    dsimp only at h1
    clear ht
    cases payload with
    | none => exact h1
    | some p =>
      cases p with
      | mk count affected =>
        dsimp only
        have h2 : SameShape st (match affected, sim, req with
            | _ :: _, false, some r => syncPinning r st1
            | _, _, _ => st1) := by
          cases affected <;> cases sim <;> cases req <;>
            first
              | exact h1
              | exact SameShape_trans h1 (SameShape_syncPinning _ _)
        generalize hst2 : (match affected, sim, req with
            | _ :: _, false, some r => syncPinning r st1
            | _, _, _ => st1) = st2 at h2
        split
        · exact h2
        · have h3 := SameShape_tier2 dist availF req to_ignore sim
            st2.actors.reverse count affected st2
          cases ht2 : tier2 dist availF req to_ignore sim st2.actors.reverse
              count affected st2 with
          | mk count2 rest2 =>
            rw [ht2] at h3
            dsimp only at h3
            clear ht2
            have h4 := SameShape_tier3 dist req sim count2 rest2.2
            cases ht3 : tier3 dist req sim count2 rest2.2 with
            | mk payload3 st3 =>
              rw [ht3] at h4
              dsimp only at h4
              clear ht3
              have hall := SameShape_trans (SameShape_trans h2 h3) h4
              cases payload3 <;> exact hall

theorem SameShape_execute_orders_loop (dist : Cpu → Cpu → ℚ)
    (availF : Nat → MState → ℤ) :
    ∀ (l removed : List Nat) (st : MState),
      SameShape st (execute_orders_loop dist availF l removed st).2 := by
  intro l
  induction l with
  | nil => intro removed st; exact SameShape_orders st []
  | cons actor rest ih =>
    intro removed st
    simp only [execute_orders_loop]
    cases halook : alookup actor st.orders with
    | none => exact ih _ _
    | some q =>
      dsimp only
      split
      · have h1 := SameShape_get_renters dist availF (some actor) q removed
          false st
        cases hg : get_renters dist availF (some actor) q removed false st with
        | mk payload st1 =>
          rw [hg] at h1
          dsimp only at h1
          clear hg
          cases payload with
          | none => exact h1
          | some aff =>
            exact SameShape_trans h1
              (SameShape_trans (SameShape_orders st1 _) (ih _ _))
      · exact ih _ _

theorem removeRes_sub_res (s : Nat) (c : Cpu) (j : Nat) (st : MState) :
    ((removeRes s c st).sub j).res =
      if j = s then (st.sub j).res.erase c else (st.sub j).res := by
  by_cases h : j = s
  · subst h; simp [removeRes]
  · rw [removeRes, updateSub_sub_ne _ _ _ _ h, if_neg h]

theorem addRes_sub_res (r : Nat) (c : Cpu) (j : Nat) (st : MState) :
    ((addRes r c st).sub j).res =
      if j = r then (st.sub j).res ++ [c] else (st.sub j).res := by
  by_cases h : j = r
  · subst h; simp [addRes]
  · rw [addRes, updateSub_sub_ne _ _ _ _ h, if_neg h]

theorem WF_of_res_eq (st st' : MState) (hsh : SameShape st st')
    (hres : ∀ j, (st'.sub j).res = (st.sub j).res) : WF st → WF st' := by
  intro h
  obtain ⟨h1, h2, h3, h4, h5, h6, h7⟩ := h
  obtain ⟨e1, e2, e3, e4⟩ := hsh
  refine ⟨by rw [e1]; exact h1, by rw [e2]; exact h2, ?_, ?_, ?_, ?_, ?_⟩
  · intro i hi
    rw [hres]
    exact h3 i (e2 ▸ hi)
  · intro i hi c hc
    rw [hres] at hc
    rw [e1]
    exact h4 i (e2 ▸ hi) c hc
  · intro i hi j hj c hci hcj
    rw [hres] at hci hcj
    exact h5 i (e2 ▸ hi) j (e2 ▸ hj) c hci hcj
  · intro a ha
    rw [e2]
    exact h6 a (e3 ▸ ha)
  · rw [e4, e2]
    exact h7

theorem WF_syncPinning (i : Nat) (st : MState) (hwf : WF st) :
    WF (syncPinning i st) :=
  WF_of_res_eq st _ (SameShape_syncPinning i st)
    (fun j => syncPinning_sub_res i j st) hwf

theorem WF_orders (st : MState) (o : List (Nat × ℤ)) (hwf : WF st) :
    WF { st with orders := o } :=
  WF_of_res_eq st _ (SameShape_orders st o) (fun _ => rfl) hwf

theorem WF_removeRes (s : Nat) (c : Cpu) (st : MState) (hwf : WF st) :
    WF (removeRes s c st) := by
  obtain ⟨h1, h2, h3, h4, h5, h6, h7⟩ := hwf
  refine ⟨h1, h2, ?_, ?_, ?_, h6, h7⟩
  · intro i hi
    rw [removeRes_sub_res]
    split
    · exact List.Nodup.erase c (h3 i hi)
    · exact h3 i hi
  · intro i hi c' hc'
    rw [removeRes_sub_res] at hc'
    split at hc'
    · exact h4 i hi c' (List.mem_of_mem_erase hc')
    · exact h4 i hi c' hc'
  · intro i hi j hj c' hci hcj
    have hci' : c' ∈ (st.sub i).res := by
      rw [removeRes_sub_res] at hci
      split at hci
      · exact List.mem_of_mem_erase hci
      · exact hci
    have hcj' : c' ∈ (st.sub j).res := by
      rw [removeRes_sub_res] at hcj
      split at hcj
      · exact List.mem_of_mem_erase hcj
      · exact hcj
    exact h5 i hi j hj c' hci' hcj'

theorem WF_addRes_unowned (r : Nat) (c : Cpu) (st : MState) (hwf : WF st)
    (hctopo : c ∈ st.topo)
    (hunowned : ∀ i ∈ st.subsets, c ∉ (st.sub i).res) : WF (addRes r c st) := by
  obtain ⟨h1, h2, h3, h4, h5, h6, h7⟩ := hwf
  have key : ∀ k, k ∈ st.subsets → ∀ c', c' ∈ ((addRes r c st).sub k).res →
      c' ∈ (st.sub k).res ∨ (c' = c ∧ k = r) := by
    intro k hk c' hc'
    rw [addRes_sub_res] at hc'
    split at hc'
    · rcases List.mem_append.mp hc' with h | h
      · exact Or.inl h
      · rename_i hkr
        simp at h
        exact Or.inr ⟨h, hkr⟩
    · exact Or.inl hc'
  refine ⟨h1, h2, ?_, ?_, ?_, h6, h7⟩
  · intro i hi
    rw [addRes_sub_res]
    split
    · rw [List.nodup_append]
      refine ⟨h3 i hi, List.nodup_singleton c, ?_⟩
      intro a ha hb
      simp at hb
      subst hb
      exact hunowned i hi ha
    · exact h3 i hi
  · intro i hi c' hc'
    rcases key i hi c' hc' with h | h
    · exact h4 i hi c' h
    · rw [h.1]
      exact hctopo
  · intro i hi j hj c' hci hcj
    rcases key i hi c' hci with hi' | hi' <;> rcases key j hj c' hcj with hj' | hj'
    · exact h5 i hi j hj c' hi' hj'
    · exact absurd (hj'.1 ▸ hi') (hunowned i hi)
    · exact absurd (hi'.1 ▸ hj') (hunowned j hj)
    · rw [hi'.2, hj'.2]

theorem WF_moveRes (s r : Nat) (c : Cpu) (st : MState) (hwf : WF st)
    (hs : s ∈ st.subsets) (hc : c ∈ (st.sub s).res) :
    WF (addRes r c (removeRes s c st)) := by
  have hwf1 := WF_removeRes s c st hwf
  obtain ⟨h1, h2, h3, h4, h5, h6, h7⟩ := hwf
  refine WF_addRes_unowned r c _ hwf1 (h4 s hs c hc) ?_
  intro i hi
  rw [removeRes_sub_res]
  split
  · rename_i his
    subst his
    exact List.Nodup.not_mem_erase (h3 i hi)
  · rename_i his
    intro hmem
    exact his (h5 i hi s hs c hmem hc)

theorem WF_foldl_remove (s : Nat) (aff : List Cpu) :
    ∀ st : MState, WF st →
      WF (aff.foldl (fun stt c => removeRes s c stt) st) := by
  induction aff with
  | nil => intro st hwf; exact hwf
  | cons c cs ih =>
    intro st hwf
    exact ih _ (WF_removeRes s c st hwf)

theorem WF_foldl_move (r s : Nat) (aff : List Cpu) :
    ∀ st : MState, WF st → s ∈ st.subsets → aff.Nodup →
      (∀ c ∈ aff, c ∈ (st.sub s).res) →
      WF (aff.foldl (fun stt c => addRes r c (removeRes s c stt)) st) := by
  induction aff with
  | nil => intro st hwf _ _ _; exact hwf
  | cons c cs ih =>
    intro st hwf hs hnd hmem
    simp only [List.foldl_cons]
    refine ih _ (WF_moveRes s r c st hwf hs (hmem c (by simp))) hs
      (List.Nodup.of_cons hnd) ?_
    intro c' hc'
    have hne : c' ≠ c := by
      intro h
      subst h
      exact (List.nodup_cons.mp hnd).1 hc'
    have hc'mem : c' ∈ (st.sub s).res := hmem c' (List.mem_cons_of_mem _ hc')
    rw [addRes_sub_res]
    split
    · rename_i hrs
      refine List.mem_append.mpr (Or.inl ?_)
      rw [removeRes_sub_res, if_pos rfl]
      exact (List.mem_erase_of_ne hne).mpr hc'mem
    · rw [removeRes_sub_res, if_pos rfl]
      exact (List.mem_erase_of_ne hne).mpr hc'mem

theorem any_key_iff_mem_keys (d : List (Nat × ℚ)) (k : Nat) :
    d.any (fun q => q.1 = k) = true ↔ k ∈ d.map Prod.fst := by
  simp only [List.any_eq_true, List.mem_map, decide_eq_true_eq]

theorem keys_map_replace (d : List (Nat × ℚ)) (k : Nat) (v : ℚ) :
    ((d.map (fun q => if q.1 = k then (k, v) else q)).map Prod.fst) =
      d.map Prod.fst := by
  rw [List.map_map]
  apply List.map_congr_left
  intro a _
  by_cases hk : a.1 = k
  · simp [Function.comp, hk]
  · simp [Function.comp, hk]

theorem dictInsert_keys_nodup (d : List (Nat × ℚ)) (k : Nat) (v : ℚ)
    (hd : (d.map Prod.fst).Nodup) : ((dictInsert d k v).map Prod.fst).Nodup := by
  unfold dictInsert
  by_cases hany : d.any (fun q => q.1 = k)
  · rw [if_pos hany, keys_map_replace]
    exact hd
  · rw [if_neg hany, List.map_append]
    rw [List.nodup_append]
    refine ⟨hd, by simp, ?_⟩
    intro a ha hb
    simp at hb
    subst hb
    exact hany ((any_key_iff_mem_keys d a).mpr ha)

theorem mem_keys_foldl_weight (dist : Cpu → Cpu → ℚ) (dmax : ℚ)
    (to_list : List Cpu) (em : Bool) :
    ∀ (l : List Cpu) (acc : List (Nat × ℚ)) (x : Nat),
      x ∈ ((l.foldl (fun acc c =>
        if c ∈ to_list then acc
        else
          let counted := to_list.filter (fun t => !(em && dist t c ≥ dmax))
          let total : ℚ := (counted.map (fun t => dist t c)).sum
          if counted.length ≤ 0 then dictInsert acc c 0
          else if total ≥ 0 then dictInsert acc c (total / counted.length)
          else acc) acc)).map Prod.fst →
      x ∈ acc.map Prod.fst ∨ x ∈ l := by
  intro l
  induction l with
  | nil => intro acc x h; exact Or.inl h
  | cons c cs ih =>
    intro acc x h
    rw [List.foldl_cons] at h
    rcases ih _ x h with h1 | h1
    · by_cases hc : c ∈ to_list
      · rw [if_pos hc] at h1
        exact Or.inl h1
      · rw [if_neg hc] at h1
        dsimp only at h1
        split at h1
        · rcases mem_keys_dictInsert h1 with h2 | h2
          · exact Or.inl h2
          · exact Or.inr (h2 ▸ List.mem_cons_self c cs)
        · split at h1
          · rcases mem_keys_dictInsert h1 with h2 | h2
            · exact Or.inl h2
            · exact Or.inr (h2 ▸ List.mem_cons_self c cs)
          · exact Or.inl h1
    · exact Or.inr (List.mem_cons_of_mem c h1)

theorem keys_nodup_foldl_weight (dist : Cpu → Cpu → ℚ) (dmax : ℚ)
    (to_list : List Cpu) (em : Bool) :
    ∀ (l : List Cpu) (acc : List (Nat × ℚ)),
      (acc.map Prod.fst).Nodup →
      (((l.foldl (fun acc c =>
        if c ∈ to_list then acc
        else
          let counted := to_list.filter (fun t => !(em && dist t c ≥ dmax))
          let total : ℚ := (counted.map (fun t => dist t c)).sum
          if counted.length ≤ 0 then dictInsert acc c 0
          else if total ≥ 0 then dictInsert acc c (total / counted.length)
          else acc) acc)).map Prod.fst).Nodup := by
  intro l
  induction l with
  | nil => intro acc h; exact h
  | cons c cs ih =>
    intro acc hacc
    rw [List.foldl_cons]
    apply ih
    by_cases hc : c ∈ to_list
    · rwa [if_pos hc]
    · rw [if_neg hc]
      dsimp only
      split
      · exact dictInsert_keys_nodup _ _ _ hacc
      · split
        · exact dictInsert_keys_nodup _ _ _ hacc
        · exact hacc

theorem get_cpus_with_weight_keys_nodup (dist : Cpu → Cpu → ℚ) (dmax : ℚ)
    (fl tl : List Cpu) (em : Bool) :
    ((get_cpus_with_weight dist dmax fl tl em).map Prod.fst).Nodup :=
  keys_nodup_foldl_weight dist dmax tl em fl [] (by simp)

theorem get_cpus_with_weight_keys_subset (dist : Cpu → Cpu → ℚ) (dmax : ℚ)
    (fl tl : List Cpu) (em : Bool) (x : Nat)
    (h : x ∈ (get_cpus_with_weight dist dmax fl tl em).map Prod.fst) :
    x ∈ fl := by
  rcases mem_keys_foldl_weight dist dmax tl em fl [] x h with h1 | h1
  · simp at h1
  · exact h1

theorem orderedCpuList_perm_keys (dist : Cpu → Cpu → ℚ) (l d : List Cpu) :
    (orderedCpuList dist l d).Perm
      ((get_cpus_with_weight dist 50 l d false).map Prod.fst) :=
  List.Perm.map Prod.fst
    (List.perm_insertionSort (fun a b : Nat × ℚ => a.2 ≤ b.2) _)

theorem orderedCpuList_nodup (dist : Cpu → Cpu → ℚ) (l d : List Cpu) :
    (orderedCpuList dist l d).Nodup :=
  ((orderedCpuList_perm_keys dist l d).nodup_iff).mpr
    (get_cpus_with_weight_keys_nodup dist 50 l d false)

theorem orderedCpuList_subset (dist : Cpu → Cpu → ℚ) (l d : List Cpu) (x : Cpu)
    (h : x ∈ orderedCpuList dist l d) : x ∈ l :=
  get_cpus_with_weight_keys_subset dist 50 l d false x
    ((orderedCpuList_perm_keys dist l d).mem_iff.mp h)

theorem mem_get_available {st : MState} {c : Cpu} (h : c ∈ get_available st) :
    c ∈ st.topo ∧ ∀ i ∈ st.subsets, c ∉ (st.sub i).res := by
  unfold get_available at h
  rw [List.mem_filter] at h
  refine ⟨h.1, ?_⟩
  intro i hi hmem
  have h2 := h.2
  simp only [Bool.not_eq_eq_eq_not, Bool.not_true, List.any_eq_false] at h2
  exact absurd (List.elem_iff.mpr hmem) (by simpa using h2 i hi)

theorem WF_transfer (dist : Cpu → Cpu → ℚ) (recv : Option Nat) (sender : Nat)
    (amt : ℤ) (sim : Bool) (st : MState) (hwf : WF st)
    (hs : sender ∈ st.subsets) :
    WF (transfer_resources dist recv sender amt sim st).2 := by
  unfold transfer_resources
  cases recv with
  | none =>
    dsimp only
    split
    · exact hwf
    · exact WF_syncPinning _ _ (WF_foldl_remove sender _ st hwf)
  | some r =>
    dsimp only
    cases sim with
    | true =>
      simp only [if_pos rfl]
      exact hwf
    | false =>
      simp only [Bool.false_eq_true, if_false]
      refine WF_syncPinning _ _ (WF_syncPinning _ _ ?_)
      refine WF_foldl_move r sender _ st hwf hs ?_ ?_
      · exact List.Nodup.sublist (List.take_sublist _ _)
          (orderedCpuList_nodup dist _ _)
      · intro c hc
        exact orderedCpuList_subset dist _ _ c (List.take_subset _ _ hc)

theorem WF_tier1 (dist : Cpu → Cpu → ℚ) (req : Option Nat) (sim : Bool) :
    ∀ (fuel : Nat) (count : ℤ) (affected : List Cpu) (st : MState), WF st →
      WF (tier1 dist req sim fuel count affected st).2 := by
  intro fuel
  induction fuel with
  | zero => intro count affected st hwf; exact hwf
  | succ n ih =>
    intro count affected st hwf
    simp only [tier1]
    split
    · exact hwf
    · split
      · exact hwf
      · rename_i closest hhead
        have hmem : closest ∈ get_available st :=
          orderedCpuList_subset dist _ _ closest
            (List.mem_of_mem_head? (by rw [hhead]; rfl))
        have hav := mem_get_available hmem
        cases req with
        | none =>
          cases sim with
          | true => exact ih _ _ _ hwf
          | false => exact ih _ _ _ hwf
        | some r =>
          cases sim with
          | true => exact ih _ _ _ hwf
          | false =>
            exact ih _ _ _ (WF_addRes_unowned r closest st hwf hav.1 hav.2)

theorem WF_tier2 (dist : Cpu → Cpu → ℚ) (availF : Nat → MState → ℤ)
    (req : Option Nat) (to_ignore : List Nat) (sim : Bool) :
    ∀ (l : List Nat) (count : ℤ) (affected : List Cpu) (st : MState), WF st →
      (∀ a ∈ l, a ∈ st.subsets) →
      WF (tier2 dist availF req to_ignore sim l count affected st).2.2 := by
  intro l
  induction l with
  | nil => intro count affected st hwf _; exact hwf
  | cons actor rest ih =>
    intro count affected st hwf hl
    simp only [tier2]
    split
    · exact ih _ _ _ hwf (fun a ha => hl a (List.mem_cons_of_mem _ ha))
    · split
      · rename_i hava
        have hwf2 := WF_transfer dist req actor (min (availF actor st) count)
          sim st hwf (hl actor (List.mem_cons_self _ _))
        have hsh := SameShape_transfer dist req actor
          (min (availF actor st) count) sim st
        split
        · exact hwf2
        · refine ih _ _ _ hwf2 ?_
          intro a ha
          rw [hsh.2.1]
          exact hl a (List.mem_cons_of_mem _ ha)
      · split
        · exact hwf
        · exact ih _ _ _ hwf (fun a ha => hl a (List.mem_cons_of_mem _ ha))

theorem WF_tier3 (dist : Cpu → Cpu → ℚ) (req : Option Nat) (sim : Bool)
    (count : ℤ) (st : MState) (hwf : WF st) :
    WF (tier3 dist req sim count st).2 := by
  unfold tier3
  split
  · cases hfb : st.fallback with
    | none => exact hwf
    | some fb =>
      dsimp only
      have hfbmem : fb ∈ st.subsets := by
        rcases hwf.2.2.2.2.2.2 with h | h
        · rw [hfb] at h; exact absurd h (by simp)
        · rw [hfb] at h; exact h
      split
      · exact WF_transfer dist req fb _ sim st hwf hfbmem
      · exact hwf
  · exact hwf

theorem WF_get_renters (dist : Cpu → Cpu → ℚ) (availF : Nat → MState → ℤ)
    (req : Option Nat) (quantity : ℤ) (to_ignore : List Nat) (sim : Bool)
    (st : MState) (hwf : WF st) :
    WF (get_renters dist availF req quantity to_ignore sim st).2 := by
  unfold get_renters
  have h1 := WF_tier1 dist req sim quantity.toNat quantity [] st hwf
  cases ht : tier1 dist req sim quantity.toNat quantity [] st with
  | mk payload st1 =>
    rw [ht] at h1
    dsimp only at h1
    clear ht
    cases payload with
    | none => exact h1
    | some p =>
      cases p with
      | mk count affected =>
        dsimp only
        have h2 : WF (match affected, sim, req with
            | _ :: _, false, some r => syncPinning r st1
            | _, _, _ => st1) := by
          cases affected <;> cases sim <;> cases req <;>
            first
              | exact h1
              | exact WF_syncPinning _ _ h1
        generalize hst2 : (match affected, sim, req with
            | _ :: _, false, some r => syncPinning r st1
            | _, _, _ => st1) = st2 at h2
        split
        · exact h2
        · have h3 := WF_tier2 dist availF req to_ignore sim st2.actors.reverse
            count affected st2 h2
            (fun a ha => h2.2.2.2.2.2.1 a (List.mem_reverse.mp ha))
          have hsh3 := SameShape_tier2 dist availF req to_ignore sim
            st2.actors.reverse count affected st2
          cases ht2 : tier2 dist availF req to_ignore sim st2.actors.reverse
              count affected st2 with
          | mk count2 rest2 =>
            rw [ht2] at h3 hsh3
            dsimp only at h3 hsh3
            clear ht2
            have h4 := WF_tier3 dist req sim count2 rest2.2 h3
            cases ht3 : tier3 dist req sim count2 rest2.2 with
            | mk payload3 st3 =>
              rw [ht3] at h4
              dsimp only at h4
              clear ht3
              cases payload3 <;> exact h4

theorem WF_execute_orders_loop (dist : Cpu → Cpu → ℚ)
    (availF : Nat → MState → ℤ) :
    ∀ (l removed : List Nat) (st : MState), WF st →
      WF (execute_orders_loop dist availF l removed st).2 := by
  intro l
  induction l with
  | nil => intro removed st hwf; exact WF_orders st [] hwf
  | cons actor rest ih =>
    intro removed st hwf
    simp only [execute_orders_loop]
    cases halook : alookup actor st.orders with
    | none => exact ih _ _ hwf
    | some q =>
      dsimp only
      split
      · have h1 := WF_get_renters dist availF (some actor) q removed false st
          hwf
        cases hg : get_renters dist availF (some actor) q removed false st with
        | mk payload st1 =>
          rw [hg] at h1
          dsimp only at h1
          clear hg
          cases payload with
          | none => exact h1
          | some aff => exact ih _ _ (WF_orders st1 _ h1)
      · exact ih _ _ hwf

theorem SameShape_runOp (dist : Cpu → Cpu → ℚ) (availF : Nat → MState → ℤ)
    (op : MarketOp) (st : MState) : SameShape st (runOp dist availF op st) := by
  cases op with
  | transferOp r s a => exact SameShape_transfer dist r s a false st
  | reclaimOp req q => exact SameShape_get_renters dist availF req q [] false st
  | execOp => exact SameShape_execute_orders_loop dist availF st.actors [] st

theorem WF_runOp (dist : Cpu → Cpu → ℚ) (availF : Nat → MState → ℤ)
    (op : MarketOp) (st : MState) (hwf : WF st)
    (hop : OpWF st.subsets op) : WF (runOp dist availF op st) := by
  cases op with
  | transferOp r s a => exact WF_transfer dist r s a false st hwf hop
  | reclaimOp req q => exact WF_get_renters dist availF req q [] false st hwf
  | execOp => exact WF_execute_orders_loop dist availF st.actors [] st hwf

theorem WF_SameShape_runOps (dist : Cpu → Cpu → ℚ)
    (availF : Nat → MState → ℤ) :
    ∀ (ops : List MarketOp) (st : MState), WF st →
      (∀ op ∈ ops, OpWF st.subsets op) →
      WF (runOps dist availF ops st) ∧
        SameShape st (runOps dist availF ops st) := by
  intro ops
  induction ops with
  | nil => intro st hwf _; exact ⟨hwf, SameShape_refl st⟩
  | cons op rest ih =>
    intro st hwf hops
    have hwf1 := WF_runOp dist availF op st hwf
      (hops op (List.mem_cons_self _ _))
    have hsh1 := SameShape_runOp dist availF op st
    have hrec := ih (runOp dist availF op st) hwf1 ?_
    · exact ⟨hrec.1, SameShape_trans hsh1 hrec.2⟩
    · intro o ho
      rw [hsh1.2.1]
      exact hops o (List.mem_cons_of_mem _ ho)

theorem count_ownedM_list (st : MState) (a : Cpu) :
    ∀ l : List Nat, l.Nodup → (∀ i ∈ l, (st.sub i).res.Nodup) →
      (∀ i ∈ l, ∀ j ∈ l, ∀ c ∈ (st.sub i).res, c ∈ (st.sub j).res → i = j) →
      Multiset.count a ((l.map (fun i => ((st.sub i).res : Multiset Cpu))).sum) =
        if ∃ i ∈ l, a ∈ (st.sub i).res then 1 else 0 := by
  intro l
  induction l with
  | nil => intro _ _ _; simp
  | cons i rest ih =>
    intro hnd hres hdisj
    rw [List.map_cons, List.sum_cons, Multiset.count_add, Multiset.coe_count]
    by_cases hmem : a ∈ (st.sub i).res
    · rw [List.count_eq_one_of_mem (hres i (List.mem_cons_self _ _)) hmem]
      have hrest : ¬ ∃ j ∈ rest, a ∈ (st.sub j).res := by
        rintro ⟨j, hj, haj⟩
        have hij : i = j := hdisj i (List.mem_cons_self _ _) j
          (List.mem_cons_of_mem _ hj) a hmem haj
        exact (List.nodup_cons.mp hnd).1 (hij ▸ hj)
      rw [ih (List.Nodup.of_cons hnd)
        (fun k hk => hres k (List.mem_cons_of_mem _ hk))
        (fun k hk k' hk' => hdisj k (List.mem_cons_of_mem _ hk) k'
          (List.mem_cons_of_mem _ hk')),
        if_neg hrest, if_pos ⟨i, List.mem_cons_self _ _, hmem⟩]
    · rw [List.count_eq_zero_of_not_mem hmem]
      rw [ih (List.Nodup.of_cons hnd)
        (fun k hk => hres k (List.mem_cons_of_mem _ hk))
        (fun k hk k' hk' => hdisj k (List.mem_cons_of_mem _ hk) k'
          (List.mem_cons_of_mem _ hk'))]
      have hiff : (∃ j ∈ rest, a ∈ (st.sub j).res) ↔
          ∃ j ∈ i :: rest, a ∈ (st.sub j).res := by
        constructor
        · rintro ⟨j, hj, haj⟩
          exact ⟨j, List.mem_cons_of_mem _ hj, haj⟩
        · rintro ⟨j, hj, haj⟩
          rcases List.mem_cons.mp hj with h | h
          · exact absurd (h ▸ haj) hmem
          · exact ⟨j, h, haj⟩
      by_cases hex : ∃ j ∈ rest, a ∈ (st.sub j).res
      · rw [if_pos hex, if_pos (hiff.mp hex)]
      · rw [if_neg hex, if_neg (fun h => hex (hiff.mpr h))]

theorem count_filter_list (p : Cpu → Bool) (a : Cpu) (l : List Cpu) :
    List.count a (l.filter p) = if p a then List.count a l else 0 := by
  by_cases hp : p a
  · rw [if_pos hp]
    exact List.count_filter hp
  · rw [if_neg hp]
    apply List.count_eq_zero_of_not_mem
    intro hmem
    exact hp (List.mem_filter.mp hmem).2

/-- Under wellformedness, the owned cores plus the unallocated pool are
exactly the topology. -/
theorem totalM_eq_topo (st : MState) (hwf : WF st) :
    totalM st = (st.topo : Multiset Cpu) := by
  obtain ⟨h1, h2, h3, h4, h5, _, _⟩ := hwf
  unfold totalM ownedM get_available
  rw [Multiset.ext]
  intro a
  rw [Multiset.count_add, Multiset.coe_count, Multiset.coe_count,
    count_ownedM_list st a st.subsets h2 h3 h5, count_filter_list]
  have hpred : (!(st.subsets.any (fun i => (st.sub i).res.contains a))) = true ↔
      ¬ ∃ i ∈ st.subsets, a ∈ (st.sub i).res := by
    simp only [Bool.not_eq_eq_eq_not, Bool.not_true, List.any_eq_false]
    constructor
    · rintro h ⟨i, hi, hmem⟩
      exact absurd (List.elem_iff.mpr hmem) (by simpa using h i hi)
    · intro h i hi
      simp only [Bool.not_eq_true]
      cases hc : (st.sub i).res.contains a
      · rfl
      · exact absurd ⟨i, hi, List.elem_iff.mp hc⟩ h
  by_cases hex : ∃ i ∈ st.subsets, a ∈ (st.sub i).res
  · rw [if_pos hex, if_neg (by
      intro hb
      exact (hpred.mp hb) hex)]
    obtain ⟨i, hi, hmem⟩ := hex
    rw [List.count_eq_one_of_mem h1 (h4 i hi a hmem)]
  · rw [if_neg hex, if_pos (hpred.mpr hex)]
    omega

/-- C1.  Market conservation: under wellformedness, any sequence of
non-simulated market operations — core transfers, `reclaim_from_all` with
simulation disabled, and `execute_orders` — leaves the multiset of all
subsets' owned cores plus the unallocated pool unchanged: no core is
created, destroyed or duplicated. -/
theorem market_conservation (dist : Cpu → Cpu → ℚ)
    (availF : Nat → MState → ℤ) (ops : List MarketOp) (st : MState)
    (hwf : WF st) (hops : ∀ op ∈ ops, OpWF st.subsets op) :
    totalM (runOps dist availF ops st) = totalM st := by
  obtain ⟨hwf', hsh⟩ := WF_SameShape_runOps dist availF ops st hwf hops
  rw [totalM_eq_topo _ hwf', totalM_eq_topo st hwf, hsh.1]

/-- Witness for C1 on a concrete wellformed market and operation sequence. -/
theorem market_conservation_witness :
    WF c1st ∧ (∀ op ∈ c1ops, OpWF c1st.subsets op) ∧
      totalM (runOps (fun _ _ => 0) (fun _ _ => 0) c1ops c1st) = totalM c1st :=
  ⟨by decide, by decide,
    market_conservation (fun _ _ => 0) (fun _ _ => 0) c1ops c1st (by decide)
      (by decide)⟩
